import Mathlib

/-!
Verification of the freelist repository: a shallow embedding of the
slot-based freelist (src/lib.rs, src/slot.rs), its iterators
(src/iterators.rs, src/iterators/iter.rs, iter_mut.rs, into_iter.rs) and
the sentinel variant (src/freelist2.rs), with theorems settling the
frozen claims about the natural-language specification.

Modelling conventions:
- Rust `Vec` becomes `List`; raw indices become `Nat`.
- Fallible or undefined behaviour (panics, `unreachable_unchecked`,
  out-of-bounds raw access) is modelled by an `Option` result where
  `none` marks the aborted or undefined execution.
- `usize` arithmetic that can underflow is modelled with a checked
  subtraction returning `Option Nat` (debug-build semantics: underflow
  aborts rather than wrapping).
-/

/-- src/slot.rs: the tagged cell type.  `Value` holds a live element,
`Next` holds the index of the next free cell, `Empty` is the terminal
free-chain marker. -/
inductive Slot (T : Type) where
  | Value : T → Slot T
  | Next : Nat → Slot T
  | Empty : Slot T
deriving DecidableEq

/-- src/slot.rs `Slot::is_value`. -/
def Slot.isValue {T : Type} : Slot T → Bool
  | .Value _ => true
  | _ => false

/-- The payload of a slot when it is a `Value`, as in the
`From<Slot<T>> for Option<T>` conversion in src/slot.rs. -/
def Slot.val? {T : Type} : Slot T → Option T
  | .Value v => some v
  | _ => none

/-- The live values stored in a run of slots, in order. -/
def slotVals {T : Type} (s : List (Slot T)) : List T :=
  s.filterMap Slot.val?

/-- The number of live (`Value`) slots in a run of slots. -/
def numVals {T : Type} (s : List (Slot T)) : Nat :=
  (slotVals s).length

/-- src/lib.rs: the freelist.  `slots` is the backing vector, `next`
the head of the free chain, `filled_length` the live count. -/
structure Freelist (T : Type) where
  slots : List (Slot T)
  next : Slot T
  filled_length : Nat
deriving DecidableEq

namespace Freelist

/-- src/lib.rs `Freelist::new` (also `with_capacity` and `default`,
whose only difference — preallocated capacity — is not observable in
this model). -/
def new {T : Type} : Freelist T :=
  { slots := [], next := .Empty, filled_length := 0 }

/-- src/lib.rs `From<Vec<T>>` / `From<[T; N]>` / `FromIterator`: every
element becomes a live slot, the chain is empty and the live count is
the input length. -/
def fromList {T : Type} (data : List T) : Freelist T :=
  { slots := data.map .Value, next := .Empty, filled_length := data.length }

/-- src/lib.rs `Freelist::push`.  `none` models the undefined
behaviour of the `unreachable_unchecked` arm (a `Value` head) and of
`get_unchecked_mut` on an out-of-range chain head. -/
def push {T : Type} (fl : Freelist T) (value : T) : Option (Nat × Freelist T) :=
  match fl.next with
  | .Next index =>
    match fl.slots.get? index with
    | some displaced =>
      some (index,
        { slots := fl.slots.set index (.Value value),
          next := displaced,
          filled_length := fl.filled_length + 1 })
    | none => none
  | .Empty =>
    some (fl.filled_length,
      { slots := fl.slots ++ [.Value value],
        next := .Empty,
        filled_length := fl.filled_length + 1 })
  | .Value _ => none

/-- src/lib.rs `Freelist::next_available`.  `none` models the
`unreachable_unchecked` arm. -/
def next_available {T : Type} (fl : Freelist T) : Option Nat :=
  match fl.next with
  | .Next index => some index
  | .Empty => some fl.filled_length
  | .Value _ => none

/-- src/lib.rs `Freelist::remove`.  The outer `Option` models the
panic on an out-of-bounds index; the inner one is the returned
`Option<T>`. -/
def remove {T : Type} (fl : Freelist T) (index : Nat) : Option (Option T × Freelist T) :=
  match fl.slots.get? index with
  | some (.Value v) =>
    some (some v,
      { slots := fl.slots.set index fl.next,
        next := .Next index,
        filled_length := fl.filled_length - 1 })
  | some _ => some (none, fl)
  | none => none

/-- src/lib.rs `Freelist::filled`. -/
def filled {T : Type} (fl : Freelist T) : Nat := fl.filled_length

/-- src/lib.rs `Freelist::size`. -/
def size {T : Type} (fl : Freelist T) : Nat := fl.slots.length

/-- src/lib.rs `Freelist::free`: `slots.len() - filled_length`. -/
def free {T : Type} (fl : Freelist T) : Nat := fl.slots.length - fl.filled_length

/-- src/lib.rs `Freelist::clear`. -/
def clear {T : Type} (_fl : Freelist T) : Freelist T :=
  { slots := [], next := .Empty, filled_length := 0 }

/-- src/lib.rs `Freelist::reserve`: the argument handed to
`reserve_exact` is `additional - self.free()`.  The subtraction is
checked (debug-build semantics): `none` models the underflow abort
when `additional < free()`.  The capacity effect itself is not
observable in this model, so the result is the reserved extra count. -/
def reserve {T : Type} (fl : Freelist T) (additional : Nat) : Option Nat :=
  if fl.free ≤ additional then some (additional - fl.free) else none

/-- src/lib.rs `Freelist::get`: outer `none` is the out-of-bounds
panic, inner `Option` is the returned reference. -/
def get {T : Type} (fl : Freelist T) (index : Nat) : Option (Option T) :=
  (fl.slots.get? index).map Slot.val?

end Freelist

/-- src/lib.rs `Freelist::compactify`, forward scan: advance the front
cursor over the range, skipping `Value` cells, until a non-`Value`
hole is found.  Returns the hole position and the advanced cursor. -/
def findHole {T : Type} (slots : List (Slot T)) (front back : Nat) :
    Option (Nat × Nat) :=
  if _h : front < back then
    match slots.getD front .Empty with
    | .Value _ => findHole slots (front + 1) back
    | _ => some (front, front + 1)
  else none
termination_by back - front

/-- src/lib.rs `Freelist::compactify`, backward scan: retreat the back
cursor over the range, skipping non-`Value` cells, until a live plug
is found.  Returns the plug position, which is also the new back
cursor. -/
def findPlug {T : Type} (slots : List (Slot T)) (front back : Nat) : Option Nat :=
  if _h : front < back then
    match slots.getD (back - 1) .Empty with
    | .Value _ => some (back - 1)
    | _ => findPlug slots front (back - 1)
  else none
termination_by back - front

theorem findHole_some_fuel {T : Type} (slots : List (Slot T)) :
    ∀ (n front back hole front1 : Nat), back - front ≤ n →
      findHole slots front back = some (hole, front1) →
      front ≤ hole ∧ hole < back ∧ front1 = hole + 1 ∧
        (slots.getD hole .Empty).isValue = false ∧
        ∀ j, front ≤ j → j < hole → (slots.getD j .Empty).isValue = true := by
  intro n
  induction n with
  | zero =>
    intro front back hole front1 hle h
    rw [findHole, dif_neg (by omega)] at h
    exact absurd h (by simp)
  | succ n ih =>
    intro front back hole front1 hle h
    by_cases hfb : front < back
    · rw [findHole, dif_pos hfb] at h
      rcases hgd : slots.getD front Slot.Empty with v | k | _
      · rw [hgd] at h
        obtain ⟨h1, h2, h3, h4, h5⟩ := ih (front + 1) back hole front1 (by omega) h
        refine ⟨by omega, h2, h3, h4, ?_⟩
        intro j hj hj'
        rcases Nat.eq_or_lt_of_le hj with rfl | hlt
        · rw [hgd]; rfl
        · exact h5 j hlt hj'
      all_goals
        rw [hgd] at h
        injection h with h'
        injection h' with e1 e2
        subst e1; subst e2
        exact ⟨le_refl _, hfb, rfl, by rw [hgd]; rfl, fun j hj hj' => by omega⟩
    · rw [findHole, dif_neg hfb] at h
      exact absurd h (by simp)

theorem findHole_some {T : Type} {slots : List (Slot T)} {front back hole front1 : Nat}
    (h : findHole slots front back = some (hole, front1)) :
    front ≤ hole ∧ hole < back ∧ front1 = hole + 1 ∧
      (slots.getD hole .Empty).isValue = false ∧
      ∀ j, front ≤ j → j < hole → (slots.getD j .Empty).isValue = true :=
  findHole_some_fuel slots (back - front) front back hole front1 (le_refl _) h

theorem findHole_none_fuel {T : Type} (slots : List (Slot T)) :
    ∀ (n front back : Nat), back - front ≤ n →
      findHole slots front back = none →
      ∀ j, front ≤ j → j < back → (slots.getD j .Empty).isValue = true := by
  intro n
  induction n with
  | zero =>
    intro front back hle _ j hj hj'
    omega
  | succ n ih =>
    intro front back hle h j hj hj'
    by_cases hfb : front < back
    · rw [findHole, dif_pos hfb] at h
      rcases hgd : slots.getD front Slot.Empty with v | k | _
      · rw [hgd] at h
        rcases Nat.eq_or_lt_of_le hj with rfl | hlt
        · rw [hgd]; rfl
        · exact ih (front + 1) back (by omega) h j hlt hj'
      all_goals rw [hgd] at h; exact absurd h (by simp)
    · omega

theorem findHole_none {T : Type} {slots : List (Slot T)} {front back : Nat}
    (h : findHole slots front back = none) :
    ∀ j, front ≤ j → j < back → (slots.getD j .Empty).isValue = true :=
  findHole_none_fuel slots (back - front) front back (le_refl _) h

theorem findPlug_some_fuel {T : Type} (slots : List (Slot T)) :
    ∀ (n front back plug : Nat), back - front ≤ n →
      findPlug slots front back = some plug →
      front ≤ plug ∧ plug < back ∧ (slots.getD plug .Empty).isValue = true ∧
        ∀ j, plug < j → j < back → (slots.getD j .Empty).isValue = false := by
  intro n
  induction n with
  | zero =>
    intro front back plug hle h
    rw [findPlug, dif_neg (by omega)] at h
    exact absurd h (by simp)
  | succ n ih =>
    intro front back plug hle h
    by_cases hfb : front < back
    · rw [findPlug, dif_pos hfb] at h
      rcases hgd : slots.getD (back - 1) Slot.Empty with v | k | _
      · rw [hgd] at h
        injection h with h'
        subst h'
        refine ⟨by omega, by omega, by rw [hgd]; rfl, ?_⟩
        intro j hj hj'; omega
      all_goals
        rw [hgd] at h
        obtain ⟨h1, h2, h3, h4⟩ := ih front (back - 1) plug (by omega) h
        refine ⟨h1, by omega, h3, ?_⟩
        intro j hj hj'
        rcases Nat.lt_or_ge j (back - 1) with hlt | hge
        · exact h4 j hj hlt
        · have hje : j = back - 1 := by omega
          subst hje
          rw [hgd]; rfl
    · rw [findPlug, dif_neg hfb] at h
      exact absurd h (by simp)

theorem findPlug_some {T : Type} {slots : List (Slot T)} {front back plug : Nat}
    (h : findPlug slots front back = some plug) :
    front ≤ plug ∧ plug < back ∧ (slots.getD plug .Empty).isValue = true ∧
      ∀ j, plug < j → j < back → (slots.getD j .Empty).isValue = false :=
  findPlug_some_fuel slots (back - front) front back plug (le_refl _) h

theorem findPlug_none_fuel {T : Type} (slots : List (Slot T)) :
    ∀ (n front back : Nat), back - front ≤ n →
      findPlug slots front back = none →
      ∀ j, front ≤ j → j < back → (slots.getD j .Empty).isValue = false := by
  intro n
  induction n with
  | zero =>
    intro front back hle _ j hj hj'
    omega
  | succ n ih =>
    intro front back hle h j hj hj'
    by_cases hfb : front < back
    · rw [findPlug, dif_pos hfb] at h
      rcases hgd : slots.getD (back - 1) Slot.Empty with v | k | _
      · rw [hgd] at h
        exact absurd h (by simp)
      all_goals
        rw [hgd] at h
        rcases Nat.lt_or_ge j (back - 1) with hlt | hge
        · exact ih front (back - 1) (by omega) h j hj hlt
        · have hje : j = back - 1 := by omega
          subst hje
          rw [hgd]; rfl
    · omega

theorem findPlug_none {T : Type} {slots : List (Slot T)} {front back : Nat}
    (h : findPlug slots front back = none) :
    ∀ j, front ≤ j → j < back → (slots.getD j .Empty).isValue = false :=
  findPlug_none_fuel slots (back - front) front back (le_refl _) h

/-- src/lib.rs `Freelist::compactify`, main loop: repeatedly find the
next hole from the front and the last plug from the back, copy the
plug over the hole (`ptr::copy_nonoverlapping` leaves the plug cell
itself unchanged; it is discarded by the final truncation), shrinking
the scanned range, until the cursors meet. -/
def compactLoop {T : Type} (slots : List (Slot T)) (front back : Nat) :
    List (Slot T) :=
  match hh : findHole slots front back with
  | none => slots
  | some (hole, front1) =>
    match hp : findPlug slots front1 back with
    | none => slots
    | some plug =>
      compactLoop (slots.set hole (slots.getD plug .Empty)) front1 plug
termination_by back - front
decreasing_by
  have h1 := findHole_some hh
  have h2 := findPlug_some hp
  omega

/-- src/lib.rs `Freelist::compactify`: run the two-cursor loop over
the whole backing vector, truncate to the live count and reset the
chain head to `Empty`. -/
def Freelist.compactify {T : Type} (fl : Freelist T) : Freelist T :=
  { slots := (compactLoop fl.slots 0 fl.slots.length).take fl.filled_length,
    next := .Empty,
    filled_length := fl.filled_length }

theorem compactLoop_none {T : Type} {slots : List (Slot T)} {front back : Nat}
    (hh : findHole slots front back = none) :
    compactLoop slots front back = slots := by
  rw [compactLoop.eq_def]
  split
  · rfl
  · rename_i hole front1 h'
    rw [hh] at h'
    cases h'

theorem compactLoop_plug_none {T : Type} {slots : List (Slot T)}
    {front back hole front1 : Nat}
    (hh : findHole slots front back = some (hole, front1))
    (hp : findPlug slots front1 back = none) :
    compactLoop slots front back = slots := by
  rw [compactLoop.eq_def]
  split
  · rfl
  · rename_i hole' front1' h'
    rw [hh] at h'
    injection h' with h''
    injection h'' with e1 e2
    subst e1; subst e2
    split
    · rfl
    · rename_i plug h2
      rw [hp] at h2
      cases h2

theorem compactLoop_step {T : Type} {slots : List (Slot T)}
    {front back hole front1 plug : Nat}
    (hh : findHole slots front back = some (hole, front1))
    (hp : findPlug slots front1 back = some plug) :
    compactLoop slots front back
      = compactLoop (slots.set hole (slots.getD plug .Empty)) front1 plug := by
  rw [compactLoop.eq_def]
  split
  · rename_i h'
    rw [hh] at h'
    cases h'
  · rename_i hole' front1' h'
    rw [hh] at h'
    injection h' with h''
    injection h'' with e1 e2
    subst e1; subst e2
    split
    · rename_i h2
      rw [hp] at h2
      cases h2
    · rename_i plug' h2
      rw [hp] at h2
      injection h2 with e3
      subst e3
      rfl

theorem Slot.val?_eq_none {T : Type} {s : Slot T} (h : s.isValue = false) :
    s.val? = none := by
  cases s <;> simp [Slot.isValue, Slot.val?] at h ⊢

theorem Slot.exists_of_isValue {T : Type} {s : Slot T} (h : s.isValue = true) :
    ∃ v, s = .Value v := by
  cases s <;> simp [Slot.isValue] at h ⊢

theorem slotVals_append {T : Type} (a b : List (Slot T)) :
    slotVals (a ++ b) = slotVals a ++ slotVals b :=
  List.filterMap_append a b Slot.val?

theorem numVals_le_length {T : Type} (s : List (Slot T)) : numVals s ≤ s.length :=
  List.length_filterMap_le Slot.val? s

theorem getD_take {α : Type} {l : List α} {n j : Nat} (h : j < n) (d : α) :
    (l.take n).getD j d = l.getD j d := by
  rw [List.getD_eq_getElem?_getD, List.getD_eq_getElem?_getD, List.getElem?_take,
    if_pos h]

theorem getD_set_ne {α : Type} {l : List α} {i j : Nat} (h : i ≠ j) (a d : α) :
    (l.set i a).getD j d = l.getD j d := by
  rw [List.getD_eq_getElem?_getD, List.getD_eq_getElem?_getD, List.getElem?_set_ne h]

theorem getD_set_self {α : Type} {l : List α} {i : Nat} (h : i < l.length) (a d : α) :
    (l.set i a).getD i d = a := by
  rw [List.getD_eq_getElem?_getD, List.getElem?_set_self h]
  rfl

theorem take_set_comm {α : Type} (l : List α) (i n : Nat) (a : α) :
    (l.set i a).take n = (l.take n).set i a := by
  apply List.ext_getElem?
  intro m
  rw [List.getElem?_take, List.getElem?_set, List.getElem?_set, List.getElem?_take,
    List.length_take]
  simp only [lt_min_iff]
  split_ifs <;> first | rfl | omega

theorem slotVals_set_value {T : Type} :
    ∀ (l : List (Slot T)) (h : Nat), h < l.length →
      ((l.getD h .Empty).isValue = false) → ∀ (x : T),
      (slotVals (l.set h (.Value x)) : Multiset T) = x ::ₘ (slotVals l : Multiset T) := by
  intro l
  induction l with
  | nil => intro h hlt; simp at hlt
  | cons a t ih =>
    intro h hlt hnv x
    cases h with
    | zero =>
      have ha : a.val? = none := Slot.val?_eq_none hnv
      show (↑(slotVals (Slot.Value x :: t)) : Multiset T) = x ::ₘ ↑(slotVals (a :: t))
      rw [slotVals, slotVals, List.filterMap_cons, List.filterMap_cons, ha,
        show (Slot.Value x).val? = some x from rfl, Multiset.cons_coe]
    | succ h =>
      have hlt' : h < t.length := by simpa using hlt
      have hnv' : (t.getD h .Empty).isValue = false := hnv
      have := ih h hlt' hnv' x
      cases hav : a.val? with
      | none =>
        simp only [List.set_cons_succ, slotVals, List.filterMap_cons, hav] at this ⊢
        exact this
      | some v =>
        simp only [List.set_cons_succ, slotVals, List.filterMap_cons, hav] at this ⊢
        rw [← Multiset.cons_coe, ← Multiset.cons_coe, this, Multiset.cons_swap]

theorem slotVals_value_set {T : Type} :
    ∀ (l : List (Slot T)) (h : Nat) (v : T), l.getD h .Empty = .Value v →
      ∀ (y : Slot T), y.isValue = false →
      (slotVals l : Multiset T) = v ::ₘ (slotVals (l.set h y) : Multiset T) := by
  intro l
  induction l with
  | nil => intro h v hv; cases h <;> simp [List.getD] at hv
  | cons a t ih =>
    intro h v hv y hy
    cases h with
    | zero =>
      have ha : a = .Value v := hv
      subst ha
      have hyn : y.val? = none := Slot.val?_eq_none hy
      show (↑(slotVals (Slot.Value v :: t)) : Multiset T) = v ::ₘ ↑(slotVals (y :: t))
      rw [slotVals, slotVals, List.filterMap_cons, List.filterMap_cons, hyn,
        show (Slot.Value v).val? = some v from rfl, Multiset.cons_coe]
    | succ h =>
      have := ih h v hv y hy
      cases hav : a.val? with
      | none =>
        simp only [List.set_cons_succ, slotVals, List.filterMap_cons, hav] at this ⊢
        exact this
      | some w =>
        simp only [List.set_cons_succ, slotVals, List.filterMap_cons, hav] at this ⊢
        rw [← Multiset.cons_coe, ← Multiset.cons_coe, this, Multiset.cons_swap]

theorem slotVals_take_congr {T : Type} {l : List (Slot T)} {a b : Nat} (hab : a ≤ b)
    (hnv : ∀ j, a ≤ j → j < b → (l.getD j .Empty).isValue = false) :
    slotVals (l.take b) = slotVals (l.take a) := by
  obtain ⟨k, rfl⟩ : ∃ k, b = a + k := ⟨b - a, by omega⟩
  clear hab
  induction k with
  | zero => rfl
  | succ k ih =>
    rw [show a + (k + 1) = (a + k) + 1 by omega, List.take_succ, slotVals_append,
      ih (fun j hj hj' => hnv j hj (by omega))]
    cases he : l[a + k]? with
    | none => simp [slotVals]
    | some s =>
      have hlen : a + k < l.length := List.getElem?_eq_some.mp he |>.1
      have hs : l.getD (a + k) .Empty = s := by
        rw [List.getD_eq_getElem?_getD, he]; rfl
      have : s.val? = none :=
        Slot.val?_eq_none (hs ▸ hnv (a + k) (by omega) (by omega))
      simp [slotVals, List.filterMap_cons, this]

theorem numVals_take_all_value {T : Type} {l : List (Slot T)} {b : Nat}
    (hv : ∀ j, j < b → (l.getD j .Empty).isValue = true) :
    numVals (l.take b) = min b l.length := by
  induction b with
  | zero => simp [numVals, slotVals]
  | succ b ih =>
    rw [List.take_succ]
    unfold numVals
    rw [slotVals_append, List.length_append]
    rw [show (slotVals (List.take b l)).length = numVals (List.take b l) from rfl,
      ih (fun j hj => hv j (by omega))]
    cases he : l[b]? with
    | none =>
      have hge : l.length ≤ b := List.getElem?_eq_none_iff.mp he
      simp [slotVals]
      omega
    | some s =>
      have hlen : b < l.length := List.getElem?_eq_some.mp he |>.1
      have hs : l.getD b .Empty = s := by
        rw [List.getD_eq_getElem?_getD, he]; rfl
      obtain ⟨v, rfl⟩ := Slot.exists_of_isValue (hs ▸ hv b (by omega))
      simp [slotVals, List.filterMap_cons, Slot.val?]
      omega

theorem slotVals_take_succ_value {T : Type} {l : List (Slot T)} {p : Nat} {x : T}
    (hp : p < l.length) (hv : l.getD p .Empty = .Value x) :
    slotVals (l.take (p + 1)) = slotVals (l.take p) ++ [x] := by
  rw [List.take_succ, slotVals_append]
  have he : l[p]? = some (.Value x) := by
    rw [List.getD_eq_getElem?_getD] at hv
    cases he' : l[p]? with
    | none => exact absurd (List.getElem?_eq_none_iff.mp he') (by omega)
    | some s => rw [he'] at hv; simp at hv; rw [hv]
  rw [he]
  simp [slotVals, List.filterMap_cons, Slot.val?]

theorem compactLoop_spec_fuel {T : Type} :
    ∀ (n : Nat) (slots : List (Slot T)) (front back : Nat), back - front ≤ n →
      back ≤ slots.length →
      (∀ j, j < front → (slots.getD j .Empty).isValue = true) →
      (compactLoop slots front back).length = slots.length ∧
      (∀ j, j < numVals (slots.take back) →
        ((compactLoop slots front back).getD j .Empty).isValue = true) ∧
      (slotVals ((compactLoop slots front back).take (numVals (slots.take back))) : Multiset T)
        = (slotVals (slots.take back) : Multiset T) := by
  intro n
  induction n with
  | zero =>
    intro slots front back hn hb hfront
    have hh : findHole slots front back = none := by
      rw [findHole, dif_neg (by omega)]
    rw [compactLoop_none hh]
    have hvals : ∀ j, j < back → (slots.getD j .Empty).isValue = true := by
      intro j hj
      exact hfront j (by omega)
    have hv : numVals (slots.take back) = back := by
      rw [numVals_take_all_value hvals]; omega
    rw [hv]
    exact ⟨rfl, fun j hj => hvals j hj, rfl⟩
  | succ n ih =>
    intro slots front back hn hb hfront
    rcases hh : findHole slots front back with _ | ⟨hole, front1⟩
    · rw [compactLoop_none hh]
      have hscan := findHole_none hh
      have hvals : ∀ j, j < back → (slots.getD j .Empty).isValue = true := by
        intro j hj
        rcases Nat.lt_or_ge j front with hjf | hjf
        · exact hfront j hjf
        · exact hscan j hjf hj
      have hv : numVals (slots.take back) = back := by
        rw [numVals_take_all_value hvals]; omega
      rw [hv]
      exact ⟨rfl, fun j hj => hvals j hj, rfl⟩
    · obtain ⟨hf1, hf2, rfl, hf4, hf5⟩ := findHole_some hh
      rcases hp : findPlug slots (hole + 1) back with _ | plug
      · rw [compactLoop_plug_none hh hp]
        have hscan := findPlug_none hp
        have hvalsup : ∀ j, j < hole → (slots.getD j .Empty).isValue = true := by
          intro j hj
          rcases Nat.lt_or_ge j front with hjf | hjf
          · exact hfront j hjf
          · exact hf5 j hjf hj
        have hcongr : slotVals (slots.take back) = slotVals (slots.take hole) := by
          apply slotVals_take_congr (by omega)
          intro j hj hj'
          rcases Nat.eq_or_lt_of_le hj with rfl | hlt
          · exact hf4
          · exact hscan j (by omega) hj'
        have hv : numVals (slots.take back) = hole := by
          unfold numVals
          rw [hcongr]
          rw [show (slotVals (slots.take hole)).length = numVals (slots.take hole) from rfl]
          rw [numVals_take_all_value hvalsup]
          omega
        rw [hv]
        refine ⟨rfl, fun j hj => hvalsup j hj, ?_⟩
        rw [hcongr]
      · obtain ⟨hp1, hp2, hp3, hp4⟩ := findPlug_some hp
        obtain ⟨x, hx⟩ := Slot.exists_of_isValue hp3
        have hstep := compactLoop_step hh hp
        rw [hx] at hstep
        rw [hstep]
        have hlenslots : (slots.set hole (Slot.Value x)).length = slots.length :=
          List.length_set slots hole (Slot.Value x)
        have hfront2 : ∀ j, j < hole + 1 →
            (((slots.set hole (Slot.Value x)).getD j .Empty).isValue = true) := by
          intro j hj
          rcases Nat.eq_or_lt_of_le (Nat.le_of_lt_succ hj) with rfl | hlt
          · rw [getD_set_self (by omega)]; rfl
          · rw [getD_set_ne (by omega)]
            rcases Nat.lt_or_ge j front with hjf | hjf
            · exact hfront j hjf
            · exact hf5 j hjf hlt
        obtain ⟨ih1, ih2, ih3⟩ := ih (slots.set hole (Slot.Value x)) (hole + 1) plug
          (by omega) (by rw [hlenslots]; omega) hfront2
        have e1 : slotVals (slots.take back) = slotVals (slots.take (plug + 1)) :=
          slotVals_take_congr (by omega) (fun j hj hj' => hp4 j (by omega) hj')
        have e2 : slotVals (slots.take (plug + 1)) = slotVals (slots.take plug) ++ [x] :=
          slotVals_take_succ_value (by omega) hx
        have e3 : (slots.set hole (Slot.Value x)).take plug
            = (slots.take plug).set hole (Slot.Value x) :=
          take_set_comm slots hole plug (Slot.Value x)
        have e4 : (slotVals ((slots.set hole (Slot.Value x)).take plug) : Multiset T)
            = x ::ₘ (slotVals (slots.take plug) : Multiset T) := by
          rw [e3]
          apply slotVals_set_value
          · rw [List.length_take]
            omega
          · rw [getD_take (by omega)]
            exact hf4
        have hperm : ((slotVals (slots.take plug) ++ [x] : List T) : Multiset T)
            = x ::ₘ (slotVals (slots.take plug) : Multiset T) := by
          rw [Multiset.cons_coe]
          exact Multiset.coe_eq_coe.mpr (List.perm_append_singleton x _)
        have hkey : (slotVals ((slots.set hole (Slot.Value x)).take plug) : Multiset T)
            = (slotVals (slots.take back) : Multiset T) := by
          rw [e4, e1, e2, hperm]
        have hv : numVals ((slots.set hole (Slot.Value x)).take plug)
            = numVals (slots.take back) := by
          have := congrArg Multiset.card hkey
          simpa [numVals] using this
        rw [← hv]
        exact ⟨by rw [ih1, hlenslots], ih2, by rw [ih3, hkey]⟩

theorem compactLoop_spec {T : Type} (slots : List (Slot T)) :
    (compactLoop slots 0 slots.length).length = slots.length ∧
    (∀ j, j < numVals slots →
      ((compactLoop slots 0 slots.length).getD j .Empty).isValue = true) ∧
    (slotVals ((compactLoop slots 0 slots.length).take (numVals slots)) : Multiset T)
      = (slotVals slots : Multiset T) := by
  have h := compactLoop_spec_fuel slots.length slots 0 slots.length (by omega)
    (le_refl _) (by omega)
  rw [List.take_length] at h
  exact h

theorem getD_append_left {α : Type} {a b : List α} {i : Nat} (h : i < a.length) (d : α) :
    (a ++ b).getD i d = a.getD i d := by
  rw [List.getD_eq_getElem?_getD, List.getD_eq_getElem?_getD, List.getElem?_append,
    if_pos h]

theorem get?_eq_getD_of_lt {α : Type} {l : List α} {i : Nat} (h : i < l.length) (d : α) :
    l.get? i = some (l.getD i d) := by
  rw [List.get?_eq_getElem?, List.getElem?_eq_getElem h, List.getD_eq_getElem l d h]

/-- The free chain of the freelist: starting from a slot value,
repeatedly follow `Next` indices through the backing vector until
`Empty`, recording the visited indices.  A derivation exists only for
finite chains that terminate at `Empty` and never pass through a
`Value` slot. -/
inductive FreeChain {T : Type} (slots : List (Slot T)) : Slot T → List Nat → Prop where
  | empty : FreeChain slots .Empty []
  | next (i : Nat) (l : List Nat) : i < slots.length →
      FreeChain slots (slots.getD i .Empty) l → FreeChain slots (.Next i) (i :: l)

theorem FreeChain.not_value {T : Type} {slots : List (Slot T)} {s : Slot T} {l : List Nat}
    (h : FreeChain slots s l) : s.isValue = false := by
  cases h <;> rfl

theorem FreeChain.mem_facts {T : Type} {slots : List (Slot T)} {s : Slot T} {l : List Nat}
    (h : FreeChain slots s l) :
    ∀ i ∈ l, i < slots.length ∧ (slots.getD i .Empty).isValue = false := by
  induction h with
  | empty => intro i hi; cases hi
  | next j l' hj hsub ih =>
    intro i hi
    rcases List.mem_cons.mp hi with rfl | hi'
    · exact ⟨hj, hsub.not_value⟩
    · exact ih i hi'

theorem FreeChain.set_transfer {T : Type} {slots : List (Slot T)} {s : Slot T}
    {l : List Nat} (h : FreeChain slots s l) {i : Nat} (x : Slot T) (hi : i ∉ l) :
    FreeChain (slots.set i x) s l := by
  induction h with
  | empty => exact .empty
  | next j l' hj hsub ih =>
    have hij : i ≠ j := fun e => hi (e ▸ List.mem_cons_self j l')
    refine .next j l' (by rw [List.length_set]; exact hj) ?_
    rw [getD_set_ne hij]
    exact ih (fun hm => hi (List.mem_cons_of_mem j hm))

theorem FreeChain.empty_inv {T : Type} {slots : List (Slot T)} {l : List Nat}
    (h : FreeChain slots .Empty l) : l = [] := by
  cases h; rfl

theorem FreeChain.next_inv {T : Type} {slots : List (Slot T)} {i : Nat} {l : List Nat}
    (h : FreeChain slots (.Next i) l) :
    ∃ l', l = i :: l' ∧ i < slots.length ∧
      FreeChain slots (slots.getD i .Empty) l' := by
  cases h with
  | next i l' hlen hsub => exact ⟨l', rfl, hlen, hsub⟩

/-- Well-formedness of the free chain of a freelist: some index list
enumerates it without duplicates and covers every free (non-`Value`)
slot. -/
def ChainOf {T : Type} (fl : Freelist T) (l : List Nat) : Prop :=
  FreeChain fl.slots fl.next l ∧ l.Nodup ∧
    ∀ i, i < fl.slots.length → (fl.slots.getD i .Empty).isValue = false → i ∈ l

/-- The data-structure invariant of src/lib.rs: a well-formed free
chain plus the live-count accounting. -/
def FreelistInv {T : Type} (fl : Freelist T) : Prop :=
  (∃ l, ChainOf fl l) ∧ fl.filled_length = numVals fl.slots

/-- States reachable through the public constructors and mutators of
src/lib.rs: `new`, `with_capacity` and `default` (all producing the
same model state), construction from a finite sequence (the `From`
impls and `from_iter`, all producing `fromList` states), and arbitrary
runs of `push`, `remove`, `clear` and `compactify`. -/
inductive Reachable {T : Type} : Freelist T → Prop where
  | base : Reachable Freelist.new
  | ofList (data : List T) : Reachable (Freelist.fromList data)
  | push (fl : Freelist T) (v : T) (i : Nat) (fl' : Freelist T) :
      Reachable fl → fl.push v = some (i, fl') → Reachable fl'
  | remove (fl : Freelist T) (i : Nat) (r : Option T) (fl' : Freelist T) :
      Reachable fl → fl.remove i = some (r, fl') → Reachable fl'
  | clear (fl : Freelist T) : Reachable fl → Reachable fl.clear
  | compactify (fl : Freelist T) : Reachable fl → Reachable fl.compactify

theorem inv_new {T : Type} : FreelistInv (Freelist.new : Freelist T) := by
  refine ⟨⟨[], .empty, List.nodup_nil, ?_⟩, rfl⟩
  intro i hi
  simp [Freelist.new] at hi

theorem inv_fromList {T : Type} (data : List T) : FreelistInv (Freelist.fromList data) := by
  refine ⟨⟨[], .empty, List.nodup_nil, ?_⟩, ?_⟩
  · intro i hi hfree
    simp only [Freelist.fromList] at hi hfree
    rw [List.length_map] at hi
    rw [List.getD_eq_getElem _ _ (by simpa using hi), List.getElem_map] at hfree
    simp [Slot.isValue] at hfree
  · show data.length = numVals (data.map Slot.Value)
    unfold numVals slotVals
    rw [List.filterMap_map]
    have hcomp : (Slot.val? ∘ Slot.Value) = (some : T → Option T) := by
      funext v; rfl
    rw [hcomp, List.filterMap_some]

theorem inv_push {T : Type} {fl : Freelist T} {v : T} {i : Nat} {fl' : Freelist T}
    (hinv : FreelistInv fl) (h : fl.push v = some (i, fl')) : FreelistInv fl' := by
  obtain ⟨⟨l, hchain, hnodup, hcomplete⟩, hfill⟩ := hinv
  unfold Freelist.push at h
  split at h
  case h_3 w hn => rw [hn] at hchain; exact absurd hchain.not_value (by simp [Slot.isValue])
  case h_2 hn =>
    rw [hn] at hchain
    have hl : l = [] := hchain.empty_inv
    subst hl
    have hall : ∀ j, j < fl.slots.length → (fl.slots.getD j .Empty).isValue = true := by
      intro j hj
      cases hval : (fl.slots.getD j .Empty).isValue with
      | true => rfl
      | false => exact absurd (hcomplete j hj hval) (List.not_mem_nil j)
    injection h with h2
    injection h2 with e1 e2
    subst e1
    subst e2
    refine ⟨⟨[], .empty, List.nodup_nil, ?_⟩, ?_⟩
    · intro j hj hfree
      exfalso
      rw [List.length_append, List.length_singleton] at hj
      rcases Nat.lt_or_ge j fl.slots.length with hjl | hjl
      · rw [getD_append_left hjl] at hfree
        rw [hall j hjl] at hfree
        cases hfree
      · have hje : j = fl.slots.length := by omega
        subst hje
        have : (fl.slots ++ [Slot.Value v]).getD fl.slots.length .Empty = .Value v := by
          rw [List.getD_eq_getElem?_getD, List.getElem?_append, if_neg (by omega)]
          simp
        rw [this] at hfree
        cases hfree
    · show fl.filled_length + 1 = numVals (fl.slots ++ [Slot.Value v])
      unfold numVals
      rw [slotVals_append, List.length_append, hfill]
      rfl
  case h_1 index hn =>
    rw [hn] at hchain
    obtain ⟨l1, rfl, hlen, hsub⟩ := hchain.next_inv
    have hmem : index ∉ l1 := (List.nodup_cons.mp hnodup).1
    have hnd1 : l1.Nodup := (List.nodup_cons.mp hnodup).2
    rw [get?_eq_getD_of_lt hlen .Empty] at h
    injection h with h2
    injection h2 with e1 e2
    subst e1
    subst e2
    refine ⟨⟨l1, ?_, hnd1, ?_⟩, ?_⟩
    · show FreeChain (fl.slots.set index (Slot.Value v)) (fl.slots.getD index .Empty) l1
      exact hsub.set_transfer (Slot.Value v) hmem
    · intro j hj hfree
      rw [List.length_set] at hj
      have hji : j ≠ index := by
        intro hje
        subst hje
        rw [getD_set_self hj] at hfree
        cases hfree
      rw [getD_set_ne (fun e => hji e.symm)] at hfree
      have := hcomplete j hj hfree
      rcases List.mem_cons.mp this with hje | hm
      · exact absurd hje hji
      · exact hm
    · show fl.filled_length + 1 = numVals (fl.slots.set index (Slot.Value v))
      have hnv : (fl.slots.getD index .Empty).isValue = false := hsub.not_value
      have hmv := slotVals_set_value fl.slots index hlen hnv v
      have hcard := congrArg Multiset.card hmv
      simp only [Multiset.coe_card, Multiset.card_cons] at hcard
      unfold numVals
      rw [hcard, hfill]
      rfl

theorem inv_remove {T : Type} {fl : Freelist T} {i : Nat} {r : Option T} {fl' : Freelist T}
    (hinv : FreelistInv fl) (h : fl.remove i = some (r, fl')) : FreelistInv fl' := by
  obtain ⟨⟨l, hchain, hnodup, hcomplete⟩, hfill⟩ := hinv
  unfold Freelist.remove at h
  cases hg : fl.slots.get? i with
  | none => rw [hg] at h; cases h
  | some s =>
    rw [hg] at h
    have hlen : i < fl.slots.length := by
      have := List.get?_eq_getElem? fl.slots i ▸ hg
      exact (List.getElem?_eq_some.mp this).1
    have hgd : fl.slots.getD i .Empty = s := by
      rw [get?_eq_getD_of_lt hlen .Empty] at hg
      injection hg
    cases s with
    | Value w =>
      injection h with h2
      injection h2 with e1 e2
      subst e1
      subst e2
      have hmem : i ∉ l := by
        intro hm
        have := (hchain.mem_facts i hm).2
        rw [hgd] at this
        cases this
      refine ⟨⟨i :: l, ?_, List.nodup_cons.mpr ⟨hmem, hnodup⟩, ?_⟩, ?_⟩
      · refine FreeChain.next i l (by rw [List.length_set]; exact hlen) ?_
        rw [getD_set_self hlen]
        exact hchain.set_transfer fl.next hmem
      · intro j hj hfree
        rw [List.length_set] at hj
        by_cases hji : j = i
        · subst hji; exact List.mem_cons_self j l
        · rw [getD_set_ne (fun e => hji e.symm)] at hfree
          exact List.mem_cons_of_mem i (hcomplete j hj hfree)
      · show fl.filled_length - 1 = numVals (fl.slots.set i fl.next)
        have hmv := slotVals_value_set fl.slots i w hgd fl.next hchain.not_value
        have hcard := congrArg Multiset.card hmv
        simp only [Multiset.coe_card, Multiset.card_cons] at hcard
        unfold numVals
        rw [hfill]
        show numVals fl.slots - 1 = _
        unfold numVals
        omega
    | Next k =>
      injection h with h2
      injection h2 with e1 e2
      subst e1
      subst e2
      exact ⟨⟨l, hchain, hnodup, hcomplete⟩, hfill⟩
    | Empty =>
      injection h with h2
      injection h2 with e1 e2
      subst e1
      subst e2
      exact ⟨⟨l, hchain, hnodup, hcomplete⟩, hfill⟩

theorem inv_clear {T : Type} (fl : Freelist T) : FreelistInv fl.clear := by
  refine ⟨⟨[], .empty, List.nodup_nil, ?_⟩, rfl⟩
  intro i hi
  simp [Freelist.clear] at hi

theorem inv_compactify {T : Type} {fl : Freelist T} (hinv : FreelistInv fl) :
    FreelistInv fl.compactify := by
  obtain ⟨⟨l, hchain, hnodup, hcomplete⟩, hfill⟩ := hinv
  obtain ⟨hlen, hval, hvals⟩ := compactLoop_spec fl.slots
  have hfl : fl.filled_length ≤ fl.slots.length := by
    rw [hfill]
    exact numVals_le_length fl.slots
  have hlentake : ((compactLoop fl.slots 0 fl.slots.length).take fl.filled_length).length
      = fl.filled_length := by
    rw [List.length_take, hlen]
    omega
  refine ⟨⟨[], .empty, List.nodup_nil, ?_⟩, ?_⟩
  · intro j hj hfree
    rw [show (fl.compactify).slots
        = (compactLoop fl.slots 0 fl.slots.length).take fl.filled_length from rfl,
      hlentake] at hj
    rw [show (fl.compactify).slots
        = (compactLoop fl.slots 0 fl.slots.length).take fl.filled_length from rfl,
      getD_take hj] at hfree
    rw [hval j (by rw [← hfill]; exact hj)] at hfree
    cases hfree
  · show fl.filled_length
      = numVals ((compactLoop fl.slots 0 fl.slots.length).take fl.filled_length)
    have hcard := congrArg Multiset.card hvals
    simp only [Multiset.coe_card] at hcard
    rw [hfill]
    exact hcard.symm

theorem reachable_inv {T : Type} {fl : Freelist T} (h : Reachable fl) : FreelistInv fl := by
  induction h with
  | base => exact inv_new
  | ofList data => exact inv_fromList data
  | push fl v i fl' _ hstep ih => exact inv_push ih hstep
  | remove fl i r fl' _ hstep ih => exact inv_remove ih hstep
  | clear fl _ _ => exact inv_clear fl
  | compactify fl _ ih => exact inv_compactify ih

theorem inv_next_spec {T : Type} {fl : Freelist T} (hinv : FreelistInv fl) :
    ∃ n, fl.next_available = some n ∧
      (∀ i, fl.next = .Next i → n = i) ∧
      (fl.next = .Empty → n = fl.slots.length) ∧
      ∀ v, ∃ fl', fl.push v = some (n, fl') := by
  obtain ⟨⟨l, hchain, hnodup, hcomplete⟩, hfill⟩ := hinv
  cases hn : fl.next with
  | Value w =>
    rw [hn] at hchain
    exact absurd hchain.not_value (by simp [Slot.isValue])
  | Next i =>
    rw [hn] at hchain
    obtain ⟨l1, rfl, hlen, hsub⟩ := hchain.next_inv
    refine ⟨i, ?_, ?_, ?_, ?_⟩
    · unfold Freelist.next_available
      rw [hn]
    · intro i' he
      injection he
    · intro he
      cases he
    · intro v
      refine ⟨Freelist.mk (fl.slots.set i (Slot.Value v)) (fl.slots.getD i .Empty)
        (fl.filled_length + 1), ?_⟩
      unfold Freelist.push
      rw [hn]
      dsimp only
      rw [get?_eq_getD_of_lt hlen .Empty]
  | Empty =>
    rw [hn] at hchain
    have hl : l = [] := hchain.empty_inv
    subst hl
    have hall : ∀ j, j < fl.slots.length → (fl.slots.getD j .Empty).isValue = true := by
      intro j hj
      cases hval : (fl.slots.getD j .Empty).isValue with
      | true => rfl
      | false => exact absurd (hcomplete j hj hval) (List.not_mem_nil j)
    have hflen : fl.filled_length = fl.slots.length := by
      rw [hfill]
      have := numVals_take_all_value (l := fl.slots) (b := fl.slots.length)
        (fun j hj => hall j hj)
      rw [List.take_length] at this
      omega
    refine ⟨fl.filled_length, ?_, ?_, fun _ => hflen, ?_⟩
    · unfold Freelist.next_available
      rw [hn]
    · intro i' he
      cases he
    · intro v
      refine ⟨Freelist.mk (fl.slots ++ [Slot.Value v]) Slot.Empty
        (fl.filled_length + 1), ?_⟩
      unfold Freelist.push
      rw [hn]

/-- C1: for every state of the freelist reachable from a constructor
(`new`, `with_capacity`, the `From` impls, `from_iter`) by any run of
`push`, `remove`, `clear` and `compactify`, the free chain starting at
the `next` field and following each `Next i` through `slots` visits
each free (non-`Value`) slot exactly once and terminates at `Empty`,
with no cycles and no duplicate indices; in particular `next` is never
a `Value` variant, so the `unreachable_unchecked` arms of `push` and
`next_available` are never reached. -/
theorem freelist_free_chain_invariant {T : Type} (fl : Freelist T) (h : Reachable fl) :
    (∃ l : List Nat,
      FreeChain fl.slots fl.next l ∧ l.Nodup ∧
      (∀ i, i ∈ l → i < fl.slots.length ∧ (fl.slots.getD i .Empty).isValue = false) ∧
      (∀ i, i < fl.slots.length → (fl.slots.getD i .Empty).isValue = false → i ∈ l)) ∧
    (∀ v : T, fl.next ≠ .Value v) ∧
    (∀ x : T, (fl.push x).isSome = true) ∧
    (fl.next_available).isSome = true := by
  obtain ⟨⟨l, hchain, hnodup, hcomplete⟩, hfill⟩ := reachable_inv h
  obtain ⟨n, hna, _, _, hpush⟩ := inv_next_spec (reachable_inv h)
  refine ⟨⟨l, hchain, hnodup, hchain.mem_facts, hcomplete⟩, ?_, ?_, ?_⟩
  · intro v he
    rw [he] at hchain
    exact absurd hchain.not_value (by simp [Slot.isValue])
  · intro x
    obtain ⟨fl', hp⟩ := hpush x
    rw [hp]
    rfl
  · rw [hna]
    rfl

/-- Witness for C1: the state reached from a one-element construction
by removing index 0 (one free slot, chain `Next 0` through an `Empty`
cell). -/
theorem freelist_free_chain_invariant_witness :
    (∃ l : List Nat,
      FreeChain (Freelist.mk [Slot.Empty] (Slot.Next 0) 0 : Freelist Nat).slots
        (Freelist.mk [Slot.Empty] (Slot.Next 0) 0 : Freelist Nat).next l ∧ l.Nodup ∧
      (∀ i, i ∈ l → i < (Freelist.mk [Slot.Empty] (Slot.Next 0) 0 : Freelist Nat).slots.length ∧
        ((Freelist.mk [Slot.Empty] (Slot.Next 0) 0 : Freelist Nat).slots.getD i .Empty).isValue = false) ∧
      (∀ i, i < (Freelist.mk [Slot.Empty] (Slot.Next 0) 0 : Freelist Nat).slots.length →
        ((Freelist.mk [Slot.Empty] (Slot.Next 0) 0 : Freelist Nat).slots.getD i .Empty).isValue = false →
        i ∈ l)) ∧
    (∀ v : Nat, (Freelist.mk [Slot.Empty] (Slot.Next 0) 0 : Freelist Nat).next ≠ .Value v) ∧
    (∀ x : Nat, ((Freelist.mk [Slot.Empty] (Slot.Next 0) 0 : Freelist Nat).push x).isSome = true) ∧
    ((Freelist.mk [Slot.Empty] (Slot.Next 0) 0 : Freelist Nat).next_available).isSome = true :=
  freelist_free_chain_invariant (Freelist.mk [Slot.Empty] (Slot.Next 0) 0)
    (Reachable.remove (Freelist.fromList [5]) 0 (some 5)
      (Freelist.mk [Slot.Empty] (Slot.Next 0) 0) (Reachable.ofList [5]) (by decide))

/-- C2: freed slots are reused in LIFO order.  For any freelist with
live values at distinct in-bounds indices i and j, removing i then j
and pushing twice places the first pushed value at j and the second at
i; concretely, starting from [10, 11, 12], remove 1 returns Some 11,
remove 2 returns Some 12, push 20 returns 2, push 21 returns 1, and
the resulting live set is 0 to 10, 1 to 21, 2 to 20. -/
theorem freelist_lifo_reuse :
    (∀ (T : Type) (fl : Freelist T) (i j : Nat) (a b : T),
      i < fl.slots.length → j < fl.slots.length → i ≠ j →
      (fl.slots.getD i .Empty).isValue = true → (fl.slots.getD j .Empty).isValue = true →
      ∃ vi vj fl1 fl2 fl3 fl4,
        fl.remove i = some (some vi, fl1) ∧
        fl1.remove j = some (some vj, fl2) ∧
        fl2.push a = some (j, fl3) ∧
        fl3.push b = some (i, fl4)) ∧
    ((Freelist.fromList [10, 11, 12]).remove 1
        = some (some 11, Freelist.mk [Slot.Value 10, Slot.Empty, Slot.Value 12] (Slot.Next 1) 2) ∧
      (Freelist.mk [Slot.Value 10, Slot.Empty, Slot.Value 12] (Slot.Next 1) 2).remove 2
        = some (some 12, Freelist.mk [Slot.Value 10, Slot.Empty, Slot.Next 1] (Slot.Next 2) 1) ∧
      (Freelist.mk [Slot.Value 10, Slot.Empty, Slot.Next 1] (Slot.Next 2) 1).push 20
        = some (2, Freelist.mk [Slot.Value 10, Slot.Empty, Slot.Value 20] (Slot.Next 1) 2) ∧
      (Freelist.mk [Slot.Value 10, Slot.Empty, Slot.Value 20] (Slot.Next 1) 2).push 21
        = some (1, Freelist.mk [Slot.Value 10, Slot.Value 21, Slot.Value 20] Slot.Empty 3) ∧
      (Freelist.mk [Slot.Value 10, Slot.Value 21, Slot.Value 20] Slot.Empty 3).get 0
        = some (some 10) ∧
      (Freelist.mk [Slot.Value 10, Slot.Value 21, Slot.Value 20] Slot.Empty 3).get 1
        = some (some 21) ∧
      (Freelist.mk [Slot.Value 10, Slot.Value 21, Slot.Value 20] Slot.Empty 3).get 2
        = some (some 20) ∧
      (Freelist.mk [Slot.Value 10, Slot.Value 21, Slot.Value 20] Slot.Empty 3 : Freelist Nat).filled
        = 3) := by
  constructor
  · intro T fl i j a b hi hj hij hvi hvj
    obtain ⟨vi, hvi'⟩ := Slot.exists_of_isValue hvi
    obtain ⟨vj, hvj'⟩ := Slot.exists_of_isValue hvj
    have hjlen1 : j < (fl.slots.set i fl.next).length := by
      rw [List.length_set]; exact hj
    have hjlen2 : j < ((fl.slots.set i fl.next).set j (Slot.Next i)).length := by
      rw [List.length_set, List.length_set]; exact hj
    have hilen3 : i < (((fl.slots.set i fl.next).set j (Slot.Next i)).set j (Slot.Value a)).length := by
      rw [List.length_set, List.length_set, List.length_set]; exact hi
    refine ⟨vi, vj,
      Freelist.mk (fl.slots.set i fl.next) (Slot.Next i) (fl.filled_length - 1),
      Freelist.mk ((fl.slots.set i fl.next).set j (Slot.Next i)) (Slot.Next j)
        (fl.filled_length - 1 - 1),
      Freelist.mk (((fl.slots.set i fl.next).set j (Slot.Next i)).set j (Slot.Value a))
        (Slot.Next i) (fl.filled_length - 1 - 1 + 1),
      Freelist.mk ((((fl.slots.set i fl.next).set j (Slot.Next i)).set j
          (Slot.Value a)).set i (Slot.Value b))
        fl.next (fl.filled_length - 1 - 1 + 1 + 1),
      ?_, ?_, ?_, ?_⟩
    · unfold Freelist.remove
      rw [get?_eq_getD_of_lt hi .Empty, hvi']
    · unfold Freelist.remove
      rw [get?_eq_getD_of_lt hjlen1 .Empty, getD_set_ne hij, hvj']
    · unfold Freelist.push
      dsimp only
      rw [get?_eq_getD_of_lt hjlen2 .Empty,
        getD_set_self (by rw [List.length_set]; exact hj)]
    · unfold Freelist.push
      dsimp only
      rw [get?_eq_getD_of_lt hilen3 .Empty,
        getD_set_ne (fun e => hij e.symm), getD_set_ne (fun e => hij e.symm),
        getD_set_self hi]
  · exact ⟨by decide, by decide, by decide, by decide, by decide, by decide, by decide, by decide⟩

/-- Witness for C2: the general LIFO statement applied to the concrete
three-element freelist of the claim. -/
theorem freelist_lifo_reuse_witness :
    ∃ vi vj fl1 fl2 fl3 fl4,
      (Freelist.fromList [10, 11, 12]).remove 1 = some (some vi, fl1) ∧
      fl1.remove 2 = some (some vj, fl2) ∧
      fl2.push 20 = some (2, fl3) ∧
      fl3.push 21 = some (1, fl4) :=
  freelist_lifo_reuse.1 Nat (Freelist.fromList [10, 11, 12]) 1 2 20 21
    (by decide) (by decide) (by decide) (by decide) (by decide)

/-- C3: for every reachable freelist state with n total slots of which
k are free, after `compactify` the slot count equals n - k, the free
count is 0, the free-chain head is `Empty`, all live values occupy the
contiguous range below `filled_length`, and the multiset of live
values is exactly the multiset of live values before the call. -/
theorem compactify_correct {T : Type} (fl : Freelist T) (h : Reachable fl) :
    fl.compactify.size = fl.size - fl.free ∧
    fl.compactify.free = 0 ∧
    fl.compactify.next = .Empty ∧
    (∀ j, j < fl.compactify.filled_length →
      (fl.compactify.slots.getD j .Empty).isValue = true) ∧
    (slotVals fl.compactify.slots : Multiset T) = (slotVals fl.slots : Multiset T) := by
  obtain ⟨hex, hfill⟩ := reachable_inv h
  obtain ⟨hlen, hval, hvals⟩ := compactLoop_spec fl.slots
  have hfl : fl.filled_length ≤ fl.slots.length := by
    rw [hfill]
    exact numVals_le_length fl.slots
  have hsz : fl.compactify.size = fl.filled_length := by
    show ((compactLoop fl.slots 0 fl.slots.length).take fl.filled_length).length = _
    rw [List.length_take, hlen]
    omega
  refine ⟨?_, ?_, rfl, ?_, ?_⟩
  · rw [hsz]
    show fl.filled_length = fl.slots.length - (fl.slots.length - fl.filled_length)
    omega
  · show fl.compactify.size - fl.compactify.filled_length = 0
    rw [hsz]
    show fl.filled_length - fl.filled_length = 0
    omega
  · intro j hj
    have hjq : j < fl.filled_length := hj
    show (((compactLoop fl.slots 0 fl.slots.length).take fl.filled_length).getD j
      .Empty).isValue = true
    rw [getD_take hjq Slot.Empty]
    rw [hfill] at hjq
    exact hval j hjq
  · show (slotVals ((compactLoop fl.slots 0 fl.slots.length).take fl.filled_length)
      : Multiset T) = _
    rw [hfill]
    exact hvals

/-- Witness for C3 at the reachable state obtained from [1, 2, 3] by
removing index 1 (one free slot in the middle). -/
theorem compactify_correct_witness :
    (Freelist.mk [Slot.Value 1, Slot.Empty, Slot.Value 3] (Slot.Next 1) 2
      : Freelist Nat).compactify.size
      = (Freelist.mk [Slot.Value 1, Slot.Empty, Slot.Value 3] (Slot.Next 1) 2
      : Freelist Nat).size
        - (Freelist.mk [Slot.Value 1, Slot.Empty, Slot.Value 3] (Slot.Next 1) 2
      : Freelist Nat).free ∧
    (Freelist.mk [Slot.Value 1, Slot.Empty, Slot.Value 3] (Slot.Next 1) 2
      : Freelist Nat).compactify.free = 0 ∧
    (Freelist.mk [Slot.Value 1, Slot.Empty, Slot.Value 3] (Slot.Next 1) 2
      : Freelist Nat).compactify.next = .Empty ∧
    (∀ j, j < (Freelist.mk [Slot.Value 1, Slot.Empty, Slot.Value 3] (Slot.Next 1) 2
      : Freelist Nat).compactify.filled_length →
      ((Freelist.mk [Slot.Value 1, Slot.Empty, Slot.Value 3] (Slot.Next 1) 2
      : Freelist Nat).compactify.slots.getD j .Empty).isValue = true) ∧
    (slotVals (Freelist.mk [Slot.Value 1, Slot.Empty, Slot.Value 3] (Slot.Next 1) 2
      : Freelist Nat).compactify.slots : Multiset Nat)
      = (slotVals [Slot.Value 1, Slot.Empty, Slot.Value 3] : Multiset Nat) :=
  compactify_correct (Freelist.mk [Slot.Value 1, Slot.Empty, Slot.Value 3] (Slot.Next 1) 2)
    (Reachable.remove (Freelist.fromList [1, 2, 3]) 1 (some 2)
      (Freelist.mk [Slot.Value 1, Slot.Empty, Slot.Value 3] (Slot.Next 1) 2)
      (Reachable.ofList [1, 2, 3]) (by decide))

/-- C4: for every reachable freelist state, `next_available` returns
(without mutating anything, as the model is pure) exactly the index
the next `push` would return: the target of the chain head when it is
`Next i`, and the total slot count when the chain is empty — which
relies on `filled_length` equalling `slots.len()` whenever the chain
is empty. -/
theorem next_available_matches_push {T : Type} (fl : Freelist T) (h : Reachable fl) :
    ∃ n, fl.next_available = some n ∧
      (∀ i, fl.next = .Next i → n = i) ∧
      (fl.next = .Empty → n = fl.slots.length) ∧
      ∀ v, ∃ fl', fl.push v = some (n, fl') :=
  inv_next_spec (reachable_inv h)

/-- Witness for C4 at the freshly constructed three-element state. -/
theorem next_available_matches_push_witness :
    ∃ n, (Freelist.fromList [7, 8, 9] : Freelist Nat).next_available = some n ∧
      (∀ i, (Freelist.fromList [7, 8, 9] : Freelist Nat).next = .Next i → n = i) ∧
      ((Freelist.fromList [7, 8, 9] : Freelist Nat).next = .Empty →
        n = (Freelist.fromList [7, 8, 9] : Freelist Nat).slots.length) ∧
      ∀ v, ∃ fl', (Freelist.fromList [7, 8, 9]).push v = some (n, fl') :=
  next_available_matches_push (Freelist.fromList [7, 8, 9]) (Reachable.ofList [7, 8, 9])

/-- C5: for every freelist state and every n strictly below the
current free count, the checked `reserve` rejects the call: the
subtraction `n - free()` is the checked (debug-semantics) one, so the
call aborts rather than wrapping around to a huge request. -/
theorem reserve_underflow_rejected {T : Type} (fl : Freelist T) (n : Nat)
    (h : n < fl.free) : fl.reserve n = none := by
  unfold Freelist.reserve
  rw [if_neg (by omega)]

/-- Witness for C5 at a state with one free slot and a request of 0. -/
theorem reserve_underflow_rejected_witness :
    0 < (Freelist.mk [Slot.Empty] (Slot.Next 0) 0 : Freelist Nat).free ∧
    (Freelist.mk [Slot.Empty] (Slot.Next 0) 0 : Freelist Nat).reserve 0 = none :=
  ⟨by decide, reserve_underflow_rejected (Freelist.mk [Slot.Empty] (Slot.Next 0) 0) 0
    (by decide)⟩

/-- src/iterators.rs `size_hint`: the pair reported by all three
iterators.  The source computes the remaining byte distance of the two
raw cursors divided by the cell size — in this index model simply the
remaining cell count — and returns it as both the lower and the upper
component: `(len, Some(len))`. -/
def size_hint (start stop : Nat) : Nat × Option Nat :=
  (stop - start, some (stop - start))

/-- src/iterators/iter.rs `IterFl`: the by-reference iterator, a pair
of cursors into the slot buffer (raw pointers in the source, indices
over the captured slice here). -/
structure IterFl (T : Type) where
  slots : List (Slot T)
  start : Nat
  stop : Nat
deriving DecidableEq

/-- src/iterators/iter.rs `IterFl::new`: cursors at the two ends of
the slice. -/
def IterFl.new {T : Type} (slice : List (Slot T)) : IterFl T :=
  { slots := slice, start := 0, stop := slice.length }

/-- src/iterators/iter.rs `Iterator::next` for `IterFl`: advance the
front cursor, skipping non-`Value` cells, until a value is yielded or
the cursors meet.  The source stops on `start == end`; every state
produced by `new` and `next` keeps `start ≤ stop`, so the `start <
stop` test used here (the exact test of the `IterMutFl` source)
coincides on those states and keeps the model total. -/
def IterFl.next {T : Type} (it : IterFl T) : Option T × IterFl T :=
  if _h : it.start < it.stop then
    match it.slots.getD it.start .Empty with
    | .Value v => (some v, ⟨it.slots, it.start + 1, it.stop⟩)
    | _ => IterFl.next ⟨it.slots, it.start + 1, it.stop⟩
  else (none, it)
termination_by it.stop - it.start

/-- src/iterators/iter.rs `IterFl::size_hint`. -/
def IterFl.sizeHint {T : Type} (it : IterFl T) : Nat × Option Nat :=
  size_hint it.start it.stop

/-- The values an `IterFl` will still yield if `next` is called to
exhaustion (the same skip loop as `next`, iterated). -/
def IterFl.toList {T : Type} (it : IterFl T) : List T :=
  if _h : it.start < it.stop then
    match it.slots.getD it.start .Empty with
    | .Value v => v :: IterFl.toList ⟨it.slots, it.start + 1, it.stop⟩
    | _ => IterFl.toList ⟨it.slots, it.start + 1, it.stop⟩
  else []
termination_by it.stop - it.start

/-- src/iterators/iter_mut.rs `IterMutFl`: the by-mutable-reference
iterator; identical cursor discipline (`while self.start < self.end`). -/
structure IterMutFl (T : Type) where
  slots : List (Slot T)
  start : Nat
  stop : Nat
deriving DecidableEq

/-- src/iterators/iter_mut.rs `IterMutFl::new`. -/
def IterMutFl.new {T : Type} (slice : List (Slot T)) : IterMutFl T :=
  { slots := slice, start := 0, stop := slice.length }

/-- src/iterators/iter_mut.rs `Iterator::next` for `IterMutFl` (the
yielded mutable references are modelled by the values they point at). -/
def IterMutFl.next {T : Type} (it : IterMutFl T) : Option T × IterMutFl T :=
  if _h : it.start < it.stop then
    match it.slots.getD it.start .Empty with
    | .Value v => (some v, ⟨it.slots, it.start + 1, it.stop⟩)
    | _ => IterMutFl.next ⟨it.slots, it.start + 1, it.stop⟩
  else (none, it)
termination_by it.stop - it.start

/-- src/iterators/iter_mut.rs `IterMutFl::size_hint`. -/
def IterMutFl.sizeHint {T : Type} (it : IterMutFl T) : Nat × Option Nat :=
  size_hint it.start it.stop

/-- The values an `IterMutFl` will still yield. -/
def IterMutFl.toList {T : Type} (it : IterMutFl T) : List T :=
  if _h : it.start < it.stop then
    match it.slots.getD it.start .Empty with
    | .Value v => v :: IterMutFl.toList ⟨it.slots, it.start + 1, it.stop⟩
    | _ => IterMutFl.toList ⟨it.slots, it.start + 1, it.stop⟩
  else []
termination_by it.stop - it.start

/-- src/iterators/into_iter.rs `IntoIterFl`: the owning iterator keeps
the whole freelist (field `_fl` in the source) alongside the two
cursors into its buffer. -/
structure IntoIterFl (T : Type) where
  start : Nat
  stop : Nat
  fl : Freelist T
deriving DecidableEq

/-- src/iterators/into_iter.rs `IntoIterFl::new`. -/
def IntoIterFl.new {T : Type} (freelist : Freelist T) : IntoIterFl T :=
  { start := 0, stop := freelist.slots.length, fl := freelist }

/-- src/iterators/into_iter.rs `Iterator::next` for `IntoIterFl`: the
source reads the cell with `ptr::read`, which duplicates the bits and
leaves the slot inside the vector untouched, so the model never
modifies the retained freelist. -/
def IntoIterFl.next {T : Type} (it : IntoIterFl T) : Option T × IntoIterFl T :=
  if _h : it.start < it.stop then
    match it.fl.slots.getD it.start .Empty with
    | .Value v => (some v, ⟨it.start + 1, it.stop, it.fl⟩)
    | _ => IntoIterFl.next ⟨it.start + 1, it.stop, it.fl⟩
  else (none, it)
termination_by it.stop - it.start

/-- src/iterators/into_iter.rs `IntoIterFl::size_hint`. -/
def IntoIterFl.sizeHint {T : Type} (it : IntoIterFl T) : Nat × Option Nat :=
  size_hint it.start it.stop

/-- The values an `IntoIterFl` will still yield. -/
def IntoIterFl.toList {T : Type} (it : IntoIterFl T) : List T :=
  if _h : it.start < it.stop then
    match it.fl.slots.getD it.start .Empty with
    | .Value v => v :: IntoIterFl.toList ⟨it.start + 1, it.stop, it.fl⟩
    | _ => IntoIterFl.toList ⟨it.start + 1, it.stop, it.fl⟩
  else []
termination_by it.stop - it.start

/-- src/iterators/into_iter.rs `Drop for IntoIterFl`, first phase: the
drain loop `for _ in &mut *self` reads out and releases exactly the
values the iterator would still yield. -/
def IntoIterFl.drainReleases {T : Type} (it : IntoIterFl T) : List T :=
  it.toList

/-- src/iterators/into_iter.rs `Drop for IntoIterFl`, second phase:
after the drain the `_fl` field is dropped; its `Vec<Slot<T>>` still
owns every slot bit-for-bit (the `ptr::read` in `next` does not clear
cells), so the derived drop releases the payload of every `Value`
slot in the buffer once more. -/
def IntoIterFl.bufferReleases {T : Type} (it : IntoIterFl T) : List T :=
  slotVals it.fl.slots

/-- All value releases performed when the owning iterator is dropped:
the drain of the unvisited range followed by the drop of the retained
freelist buffer. -/
def IntoIterFl.dropReleases {T : Type} (it : IntoIterFl T) : List T :=
  it.drainReleases ++ it.bufferReleases

theorem iterFl_toList_length_fuel {T : Type} :
    ∀ (n : Nat) (it : IterFl T), it.stop - it.start ≤ n →
      it.toList.length ≤ it.stop - it.start := by
  intro n
  induction n with
  | zero =>
    intro it hle
    rw [IterFl.toList, dif_neg (by omega)]
    simp
  | succ n ih =>
    intro it hle
    by_cases hlt : it.start < it.stop
    · rw [IterFl.toList, dif_pos hlt]
      cases hgd : it.slots.getD it.start .Empty with
      | Value v =>
        dsimp only
        have := ih ⟨it.slots, it.start + 1, it.stop⟩ (by simp; omega)
        simp only [List.length_cons]
        simp at this
        omega
      | Next k =>
        dsimp only
        have := ih ⟨it.slots, it.start + 1, it.stop⟩ (by simp; omega)
        simp at this
        omega
      | Empty =>
        dsimp only
        have := ih ⟨it.slots, it.start + 1, it.stop⟩ (by simp; omega)
        simp at this
        omega
    · rw [IterFl.toList, dif_neg hlt]
      simp

theorem iterMutFl_toList_length_fuel {T : Type} :
    ∀ (n : Nat) (it : IterMutFl T), it.stop - it.start ≤ n →
      it.toList.length ≤ it.stop - it.start := by
  intro n
  induction n with
  | zero =>
    intro it hle
    rw [IterMutFl.toList, dif_neg (by omega)]
    simp
  | succ n ih =>
    intro it hle
    by_cases hlt : it.start < it.stop
    · rw [IterMutFl.toList, dif_pos hlt]
      cases hgd : it.slots.getD it.start .Empty with
      | Value v =>
        dsimp only
        have := ih ⟨it.slots, it.start + 1, it.stop⟩ (by simp; omega)
        simp only [List.length_cons]
        simp at this
        omega
      | Next k =>
        dsimp only
        have := ih ⟨it.slots, it.start + 1, it.stop⟩ (by simp; omega)
        simp at this
        omega
      | Empty =>
        dsimp only
        have := ih ⟨it.slots, it.start + 1, it.stop⟩ (by simp; omega)
        simp at this
        omega
    · rw [IterMutFl.toList, dif_neg hlt]
      simp

theorem intoIterFl_toList_length_fuel {T : Type} :
    ∀ (n : Nat) (it : IntoIterFl T), it.stop - it.start ≤ n →
      it.toList.length ≤ it.stop - it.start := by
  intro n
  induction n with
  | zero =>
    intro it hle
    rw [IntoIterFl.toList, dif_neg (by omega)]
    simp
  | succ n ih =>
    intro it hle
    by_cases hlt : it.start < it.stop
    · rw [IntoIterFl.toList, dif_pos hlt]
      cases hgd : it.fl.slots.getD it.start .Empty with
      | Value v =>
        dsimp only
        have := ih ⟨it.start + 1, it.stop, it.fl⟩ (by simp; omega)
        simp only [List.length_cons]
        simp at this
        omega
      | Next k =>
        dsimp only
        have := ih ⟨it.start + 1, it.stop, it.fl⟩ (by simp; omega)
        simp at this
        omega
      | Empty =>
        dsimp only
        have := ih ⟨it.start + 1, it.stop, it.fl⟩ (by simp; omega)
        simp at this
        omega
    · rw [IntoIterFl.toList, dif_neg hlt]
      simp

/-- Counterexample for C6 as stated: on the slice
`[Empty, Value 1, Next 0, Value 2]` (the fixture of the repository's
own iterator tests) a fresh by-reference iterator reports the pair
`(4, Some 4)`; the first component — the lower bound asserted to
`Iterator` consumers — is 4 while only 2 values will ever be yielded,
so the hint IS asserted as a (here invalid) lower bound, contrary to
the claim. -/
theorem iter_size_hint_lower_bound_counterexample :
    (IterFl.new [Slot.Empty, Slot.Value 1, Slot.Next 0, Slot.Value (2 : Nat)]).sizeHint.1
      = 4 ∧
    (IterFl.new [Slot.Empty, Slot.Value 1, Slot.Next 0, Slot.Value (2 : Nat)]).toList.length
      = 2 ∧
    ¬ ((IterFl.new [Slot.Empty, Slot.Value 1, Slot.Next 0, Slot.Value (2 : Nat)]).sizeHint.1
        ≤ (IterFl.new [Slot.Empty, Slot.Value 1, Slot.Next 0,
            Slot.Value (2 : Nat)]).toList.length) := by
  refine ⟨rfl, ?_, ?_⟩ <;>
    simp [IterFl.new, IterFl.toList, IterFl.sizeHint, size_hint]

/-- C6 amended: for every intermediate state of each of the three
traversals, the reported size hint is the pair `(len, Some len)` where
`len` is the count of cells in the remaining unscanned range; the
upper component is a sound upper bound — the values still yielded
never exceed it — but the lower component equals the same cell count
and may overstate the yields when unskipped free cells remain. -/
theorem iter_size_hint_upper_bound {T : Type} :
    (∀ it : IterFl T,
      it.sizeHint = (it.stop - it.start, some (it.stop - it.start)) ∧
      it.toList.length ≤ it.stop - it.start) ∧
    (∀ it : IterMutFl T,
      it.sizeHint = (it.stop - it.start, some (it.stop - it.start)) ∧
      it.toList.length ≤ it.stop - it.start) ∧
    (∀ it : IntoIterFl T,
      it.sizeHint = (it.stop - it.start, some (it.stop - it.start)) ∧
      it.toList.length ≤ it.stop - it.start) :=
  ⟨fun it => ⟨rfl, iterFl_toList_length_fuel (it.stop - it.start) it (le_refl _)⟩,
   fun it => ⟨rfl, iterMutFl_toList_length_fuel (it.stop - it.start) it (le_refl _)⟩,
   fun it => ⟨rfl, intoIterFl_toList_length_fuel (it.stop - it.start) it (le_refl _)⟩⟩

/-- C7: dropping the owning iterator does NOT release each remaining
value exactly once.  On the one-element freelist holding 10, dropping
the fresh iterator performs two releases of the value 10 — once by the
drain loop of the `Drop` impl and once more when the retained
freelist's buffer is dropped (its cells were read with `ptr::read` and
never cleared) — and even after the iterator has yielded the value
(`next` returns it to the caller), the teardown releases it yet again. -/
theorem into_iter_drop_double_release :
    (IntoIterFl.new (Freelist.fromList [10])).dropReleases = [10, 10] ∧
    (IntoIterFl.new (Freelist.fromList [10])).next
      = (some 10, IntoIterFl.mk 1 1 (Freelist.fromList [10])) ∧
    (IntoIterFl.mk 1 1 (Freelist.fromList [10])).dropReleases = [10] := by
  refine ⟨?_, ?_, ?_⟩
  · simp [IntoIterFl.new, IntoIterFl.dropReleases, IntoIterFl.drainReleases,
      IntoIterFl.bufferReleases, IntoIterFl.toList, Freelist.fromList, slotVals, Slot.val?]
  · rw [IntoIterFl.next]
    simp [IntoIterFl.new, Freelist.fromList]
  · simp [IntoIterFl.dropReleases, IntoIterFl.drainReleases,
      IntoIterFl.bufferReleases, IntoIterFl.toList, Freelist.fromList, slotVals, Slot.val?]

/-- src/freelist2.rs `Container<T>`: `datum` is a `ManuallyDrop<T>`
over possibly-uninitialized memory — `none` models the uninitialized
sentinel datum, and since `ManuallyDrop::take` only copies the bits
out, taking a value leaves this field unchanged; `next` is the
`Option<NonZeroUsize>` free-chain link (internal indices, always at
least 1). -/
structure Container2 (T : Type) where
  datum : Option T
  next : Option Nat
deriving DecidableEq

/-- src/freelist2.rs `Freelist2<T>`: the sentinel variant.  `data[0]`
is the permanently unused sentinel cell, every external index is
internally offset by one, `next` is the free-chain head. -/
structure Freelist2 (T : Type) where
  data : List (Container2 T)
  next : Option Nat
deriving DecidableEq

namespace Freelist2

/-- src/freelist2.rs `Freelist2::new`: just the sentinel cell. -/
def new {T : Type} : Freelist2 T :=
  { data := [⟨none, none⟩], next := none }

/-- src/freelist2.rs `From<Vec<T>>`: sentinel followed by one live
container per element (an empty vector yields `new`). -/
def fromList {T : Type} (l : List T) : Freelist2 T :=
  if l.length = 0 then new
  else { data := ⟨none, none⟩ :: l.map (fun v => ⟨some v, none⟩), next := none }

/-- src/freelist2.rs `Freelist2::push`: recycle the chain head (taking
its link, dropping its stale datum, storing the new one) or append;
returns the external index.  `none` models the `get_unchecked_mut`
undefined behaviour on an out-of-range head. -/
def push {T : Type} (fl : Freelist2 T) (datum : T) : Option (Nat × Freelist2 T) :=
  match fl.next with
  | none =>
    some (fl.data.length - 1, { fl with data := fl.data ++ [⟨some datum, none⟩] })
  | some idx =>
    match fl.data.get? idx with
    | some node =>
      some (idx - 1, { data := fl.data.set idx ⟨some datum, none⟩, next := node.next })
    | none => none

/-- src/freelist2.rs `Freelist2::remove`: if the cell's link is
vacant, thread it onto the chain and return its datum (the source
returns `Some(ManuallyDrop::take(datum))`, which for every
initialized cell is the stored value); otherwise return nothing.  The
outer `none` models the indexing panic. -/
def remove {T : Type} (fl : Freelist2 T) (idx : Nat) : Option (Option T × Freelist2 T) :=
  match fl.data.get? (idx + 1) with
  | none => none
  | some node =>
    match node.next with
    | none =>
      some (node.datum,
        { data := fl.data.set (idx + 1) { node with next := fl.next },
          next := some (idx + 1) })
    | some _ => some (none, fl)

/-- src/freelist2.rs `Freelist2::replace`: overwrite the datum in
place when the cell's link is vacant and the cell is not the chain
head, returning the previous datum; otherwise return nothing. -/
def replace {T : Type} (fl : Freelist2 T) (idx : Nat) (datum : T) :
    Option (Option T × Freelist2 T) :=
  match fl.data.get? (idx + 1) with
  | none => none
  | some node =>
    if node.next = none ∧ ¬ fl.next = some (idx + 1) then
      some (node.datum,
        { fl with data := fl.data.set (idx + 1) { node with datum := some datum } })
    else some (none, fl)

/-- src/freelist2.rs `Freelist2::swap_remove`: when both cells pass
the link-vacant and not-chain-head checks (evaluated left to right
with short circuiting, as in the source), thread the second cell onto
the chain, swap the two datums and take the second cell's datum —
after the swap, the value that originally occupied the FIRST index. -/
def swap_remove {T : Type} (fl : Freelist2 T) (idx ndx : Nat) :
    Option (Option T × Freelist2 T) :=
  match fl.data.get? (idx + 1) with
  | none => none
  | some nodeI =>
    if nodeI.next = none ∧ ¬ fl.next = some (idx + 1) then
      match fl.data.get? (ndx + 1) with
      | none => none
      | some nodeN =>
        if nodeN.next = none ∧ ¬ fl.next = some (ndx + 1) then
          some (nodeI.datum,
            { data := (fl.data.set (idx + 1) { nodeI with datum := nodeN.datum }).set
                (ndx + 1) ⟨nodeI.datum, fl.next⟩,
              next := some (ndx + 1) })
        else some (none, fl)
    else some (none, fl)

/-- src/freelist2.rs `Freelist2::delete`: free a slot without
returning the value, when its link is vacant. -/
def delete {T : Type} (fl : Freelist2 T) (idx : Nat) : Option (Freelist2 T) :=
  match fl.data.get? (idx + 1) with
  | none => none
  | some node =>
    if node.next = none then
      some { data := fl.data.set (idx + 1) { node with next := fl.next },
             next := some (idx + 1) }
    else some fl

/-- src/freelist2.rs `Index`: reads `data[idx + 1].datum` (with the
sentinel offset); the outer `none` models the indexing panic. -/
def index {T : Type} (fl : Freelist2 T) (idx : Nat) : Option (Option T) :=
  (fl.data.get? (idx + 1)).map Container2.datum

/-- src/freelist2.rs `IndexMut`: the source indexes `data[idx]`,
WITHOUT the sentinel offset applied by `Index` and every other
accessor.  Writing a value through the returned mutable reference is
modelled as a functional update at that unshifted position. -/
def index_mut_set {T : Type} (fl : Freelist2 T) (idx : Nat) (v : T) :
    Option (Freelist2 T) :=
  (fl.data.get? idx).map fun node =>
    { fl with data := fl.data.set idx { node with datum := some v } }

end Freelist2

/-- C8: `replace` fails to reject a free slot that is the tail of the
free chain.  After removing external indices 1 then 0 from
[10, 11, 12], index 1 is free — a non-head chain member whose link
field is vacant because the chain was empty when it was freed — yet
`replace 1 99` passes the liveness check, overwrites the cell and
returns the already-removed value 11 instead of rejecting with
nothing, as the claim and the spec require. -/
theorem freelist2_replace_free_tail_bug :
    (Freelist2.fromList [10, 11, 12]).remove 1
      = some (some 11, Freelist2.mk [⟨none, none⟩, ⟨some 10, none⟩, ⟨some 11, none⟩,
          ⟨some 12, none⟩] (some 2)) ∧
    (Freelist2.mk [⟨none, none⟩, ⟨some 10, none⟩, ⟨some 11, none⟩, ⟨some 12, none⟩]
        (some 2) : Freelist2 Nat).remove 0
      = some (some 10, Freelist2.mk [⟨none, none⟩, ⟨some 10, some 2⟩, ⟨some 11, none⟩,
          ⟨some 12, none⟩] (some 1)) ∧
    ((Freelist2.mk [⟨none, none⟩, ⟨some 10, some 2⟩, ⟨some 11, none⟩, ⟨some 12, none⟩]
        (some 1) : Freelist2 Nat).replace 1 99).map Prod.fst = some (some 11) ∧
    ¬ (((Freelist2.mk [⟨none, none⟩, ⟨some 10, some 2⟩, ⟨some 11, none⟩, ⟨some 12, none⟩]
        (some 1) : Freelist2 Nat).replace 1 99).map Prod.fst = some none) :=
  ⟨by decide, by decide, by decide, by decide⟩

/-- Counterexample for C9 as stated: on [10, 13, 12, 42] (both indices
live, matching the repository's own test), `swap_remove 1 2` returns
Some 13 — the value that occupied the FIRST index — and not Some 12,
the value that occupied the second index, which the claim asserts. -/
theorem swap_remove_return_counterexample :
    ((Freelist2.fromList [10, 13, 12, 42]).swap_remove 1 2).map Prod.fst
      = some (some 13) ∧
    ¬ (((Freelist2.fromList [10, 13, 12, 42]).swap_remove 1 2).map Prod.fst
      = some (some 12)) :=
  ⟨by decide, by decide⟩

/-- C9 amended: when both indices pass the in-place liveness check of
the source — the container's link field is vacant and the index is not
the current chain head, which is how the code approximates liveness —
`swap_remove a b` moves the value at b into slot a, threads b onto the
free chain (its stale datum left in place), and returns Some of the
value that occupied a (not b) before the move; when either index fails
the check (both being in bounds), it returns nothing and leaves the
state unchanged. -/
theorem freelist2_swap_remove_spec {T : Type} (fl : Freelist2 T) (a b : Nat)
    (nodeA nodeB : Container2 T)
    (ha : fl.data.get? (a + 1) = some nodeA)
    (hb : fl.data.get? (b + 1) = some nodeB) :
    ((nodeA.next = none ∧ ¬ fl.next = some (a + 1) ∧
      nodeB.next = none ∧ ¬ fl.next = some (b + 1)) →
      fl.swap_remove a b
        = some (nodeA.datum,
            Freelist2.mk
              ((fl.data.set (a + 1) { nodeA with datum := nodeB.datum }).set (b + 1)
                ⟨nodeA.datum, fl.next⟩)
              (some (b + 1)))) ∧
    (¬ (nodeA.next = none ∧ ¬ fl.next = some (a + 1) ∧
      nodeB.next = none ∧ ¬ fl.next = some (b + 1)) →
      fl.swap_remove a b = some (none, fl)) := by
  unfold Freelist2.swap_remove
  rw [ha]
  dsimp only
  rw [hb]
  constructor
  · rintro ⟨h1, h2, h3, h4⟩
    rw [if_pos ⟨h1, h2⟩]
    dsimp only
    rw [if_pos ⟨h3, h4⟩]
  · intro hneg
    by_cases hA : nodeA.next = none ∧ ¬ fl.next = some (a + 1)
    · rw [if_pos hA]
      dsimp only
      rw [if_neg (fun hB => hneg ⟨hA.1, hA.2, hB.1, hB.2⟩)]
    · rw [if_neg hA]

/-- Witness for C9 at the concrete state of the repository's test:
both external indices 1 and 2 of [10, 13, 12, 42] are live, and
`swap_remove 1 2` relocates 12 into slot 1, frees slot 2 and returns
Some 13. -/
theorem freelist2_swap_remove_spec_witness :
    (Freelist2.fromList [10, 13, 12, 42]).swap_remove 1 2
      = some (some 13,
          Freelist2.mk [⟨none, none⟩, ⟨some 10, none⟩, ⟨some 12, none⟩,
            ⟨some 13, none⟩, ⟨some 42, none⟩] (some 3)) :=
  (freelist2_swap_remove_spec (Freelist2.fromList [10, 13, 12, 42]) 1 2
      ⟨some 13, none⟩ ⟨some 12, none⟩ (by decide) (by decide)).1
    (by decide)

/-- C10: immutable and mutable indexing do NOT agree: the mutable
indexing operation omits the sentinel offset, so writing 99 through
the mutable index at external index 1 of [10, 11, 12] lands on
internal cell 1 — which immutable indexing addresses as external index
0 — and reading index 1 afterwards still sees 11 while index 0 now
reads 99. -/
theorem freelist2_index_mut_offset_bug :
    ((Freelist2.fromList [10, 11, 12]).index_mut_set 1 99).map
        (fun fl => (fl.index 0, fl.index 1))
      = some (some (some 99), some (some 11)) ∧
    ¬ (((Freelist2.fromList [10, 11, 12]).index_mut_set 1 99).map
        (fun fl => fl.index 1)
      = some (some (some 99))) :=
  ⟨by decide, by decide⟩
